import Mathlib

/-!
Verification of the Blip droid-voice generation pipeline
(`BlipStaticVoiceGeneration.py`).

The audio core is embedded shallowly: waveforms are lists of rational
sample values, the fallible librosa transforms (`time_stretch`,
`pitch_shift`, `resample`) are abstract stage functions returning
`Option`, and a raised exception is modelled by `none` propagating
through the pipeline exactly as the source's `try`/`except` does.
Purely external library routines whose behaviour the repository relies
on (`librosa.util.normalize`, `scipy.io.wavfile.write`) are modelled
from the specification and are marked as such in their doc comments.
-/

set_option maxRecDepth 100000

namespace Blip

/-- Configuration constant `SAMPLE_RATE = 16000` from the source. -/
def SAMPLE_RATE : ℕ := 16000

/-- Configuration constant `PITCH_SHIFT_STEPS = 8` from the source. -/
def PITCH_SHIFT_STEPS : ℚ := 8

/-- Configuration constant `SPEED_RATE = 1.12` from the source. -/
def SPEED_RATE : ℚ := 112 / 100

/-- Configuration constant `ADD_END_INFLECTION = True` from the source. -/
def ADD_END_INFLECTION : Bool := true

/-- Configuration constant `INFLECTION_AMOUNT = 5` from the source. -/
def INFLECTION_AMOUNT : ℚ := 5

/-- Configuration constant `INFLECTION_DURATION = 0.15` from the source. -/
def INFLECTION_DURATION : ℚ := 15 / 100

/-- Python slice `l[s:e]` for `0 ≤ s`, clamped at the list's length. -/
def pySlice {α : Type*} (l : List α) (s e : ℕ) : List α :=
  (l.drop s).take (e - s)

/-- `np.linspace a b n`: `n` evenly spaced values from `a` to `b`
inclusive (for `n = 1` the division by `n - 1 = 0` yields `a`,
matching numpy's single-element result). -/
def linspace (a b : ℚ) (n : ℕ) : List ℚ :=
  (List.range n).map fun (j : ℕ) => a + (b - a) * (j : ℚ) / ((n : ℚ) - 1)

/-- `np.mean` of a list of samples (unreachable empty case yields `0`). -/
def mean (l : List ℚ) : ℚ := l.sum / (l.length : ℚ)

/-- `inflection_samples = int(len(y) * INFLECTION_DURATION)`; the
argument is nonnegative so Python's truncating `int` agrees with the
floor. -/
def tailLen (y : List ℚ) : ℕ :=
  (Int.floor ((y.length : ℚ) * INFLECTION_DURATION)).toNat

/-- `main_part = y[:-inflection_samples]` (the guard ensures
`0 < inflection_samples ≤ len(y)` whenever this is used). -/
def mainSeg (y : List ℚ) : List ℚ := y.take (y.length - tailLen y)

/-- `end_part = y[-inflection_samples:]`. -/
def tailSeg (y : List ℚ) : List ℚ := y.drop (y.length - tailLen y)

/-- `chunk_size = len(end_part) // 10`. -/
def chunkSize (y : List ℚ) : ℕ := (tailSeg y).length / 10

/-- Loop bound `end = start + chunk_size if i < 9 else len(end_part)`. -/
def chunkEnd (y : List ℚ) (i : ℕ) : ℕ :=
  if i < 9 then i * chunkSize y + chunkSize y else (tailSeg y).length

/-- `chunk = end_part[start:end]` for loop index `i`. -/
def chunkOf (y : List ℚ) (i : ℕ) : List ℚ :=
  pySlice (tailSeg y) (i * chunkSize y) (chunkEnd y i)

/-- `bend_envelope = np.linspace(0, INFLECTION_AMOUNT, len(end_part))`. -/
def envOf (y : List ℚ) : List ℚ :=
  linspace 0 INFLECTION_AMOUNT (tailSeg y).length

/-- `avg_shift = bend_envelope[start:end].mean()` for loop index `i`. -/
def shiftOf (y : List ℚ) (i : ℕ) : ℚ :=
  mean (pySlice (envOf y) (i * chunkSize y) (chunkEnd y i))

/-- The `for i in range(10)` loop of `_add_inflection`: each chunk
longer than 100 samples is pitch-shifted by the mean envelope value
over its range, shorter chunks are appended unchanged; a failing
shift (`none`) aborts the whole loop like a raised exception. -/
def processLoop (ps : List ℚ → ℚ → Option (List ℚ)) (y : List ℚ) :
    List ℕ → Option (List (List ℚ))
  | [] => some []
  | i :: is =>
    (if 100 < (chunkOf y i).length then ps (chunkOf y i) (shiftOf y i)
     else some (chunkOf y i)).bind fun p =>
      (processLoop ps y is).bind fun rest => some (p :: rest)

/-- `_add_inflection(y, sr)`, parameterised by the underlying
`librosa.effects.pitch_shift` operation `ps`. -/
def addInflection (ps : List ℚ → ℚ → Option (List ℚ)) (y : List ℚ) :
    Option (List ℚ) :=
  if ADD_END_INFLECTION then
    if tailLen y < 100 then some y
    else (processLoop ps y (List.range 10)).bind fun parts =>
      some (mainSeg y ++ parts.flatten)
  else some y

/-- Peak amplitude `max(|x|)` of a waveform (`0` for the empty one). -/
def maxAbs (w : List ℚ) : ℚ := (w.map fun x => |x|).foldr max 0

/-- Modelled from the spec: `librosa.util.normalize` is an external
library routine not part of this repository; per spec section 4.2 it
scales all samples by a single scalar so the maximum absolute sample
becomes exactly 1.0 and leaves an all-zero waveform unchanged. -/
def normalize (w : List ℚ) : List ℚ :=
  if maxAbs w = 0 then w else w.map fun x => x / maxAbs w

/-- `_apply_robot_effects` after loading: time-stretch, global pitch
shift by `PITCH_SHIFT_STEPS`, end inflection, resample to the target
rate, then normalize; any stage failure (`none`, a raised exception in
the source) makes the whole function return `none` via the
`try`/`except` wrapper. -/
def applyRobotEffects (ts : List ℚ → Option (List ℚ))
    (ps : List ℚ → ℚ → Option (List ℚ))
    (rs : List ℚ → Option (List ℚ)) (y : List ℚ) : Option (List ℚ) :=
  (ts y).bind fun y1 =>
    (ps y1 PITCH_SHIFT_STEPS).bind fun y2 =>
      (addInflection ps y2).bind fun y3 =>
        (rs y3).bind fun y4 => some (normalize y4)

/-- `np.clip(s, -1, 1)`. -/
def npClip (s : ℚ) : ℚ := min 1 (max (-1) s)

/-- One sample of `((audio_clipped + 1) * 127.5).astype(np.uint8)`:
the value lies in `[0, 255]`, so the truncating uint8 cast is the
floor. -/
def encodeByte (s : ℚ) : ℕ :=
  (Int.floor ((npClip s + 1) * (255 / 2 : ℚ))).toNat

/-- The quantisation of `_save_optimized`: one byte per sample. -/
def encode (w : List ℚ) : List ℕ := w.map encodeByte

/-- Two little-endian bytes of a 16-bit value. -/
def le16 (v : ℕ) : List ℕ := [v % 256, v / 256 % 256]

/-- Four little-endian bytes of a 32-bit value. -/
def le32 (v : ℕ) : List ℕ :=
  [v % 256, v / 256 % 256, v / 65536 % 256, v / 16777216 % 256]

/-- Modelled from the spec: `scipy.io.wavfile.write` is an external
library routine not part of this repository; per spec section 6 it
produces the conventional 44-byte RIFF/WAVE header (PCM format code 1,
1 channel, the given sample rate, byte rate = rate for 8-bit mono,
block align 1, 8 bits per sample, data chunk size = payload length,
RIFF chunk size = 36 + payload length) followed by the raw bytes. -/
def wavHeader (rate dataLen : ℕ) : List ℕ :=
  [82, 73, 70, 70] ++ le32 (36 + dataLen) ++ [87, 65, 86, 69] ++
    [102, 109, 116, 32] ++ le32 16 ++ le16 1 ++ le16 1 ++ le32 rate ++
    le32 rate ++ le16 1 ++ le16 8 ++ [100, 97, 116, 97] ++ le32 dataLen

/-- The bytes of the persisted WAV file. -/
def wavFile (rate : ℕ) (data : List ℕ) : List ℕ :=
  wavHeader rate data.length ++ data

/-- `_save_optimized`: clip, quantise to unsigned bytes, and write a
WAV container at `SAMPLE_RATE`; the result is the persisted file's
byte sequence. -/
def saveOptimized (audio : List ℚ) : List ℕ :=
  wavFile SAMPLE_RATE (encode audio)

/-- `generate_clip`: TTS, then effects, then save.  The first
component is the returned success flag, the second the persisted
clip's bytes (if any).  A TTS failure or an effects failure returns
`False` before `_save_optimized` is ever invoked. -/
def generateClip (ttsOk : Bool) (ts : List ℚ → Option (List ℚ))
    (ps : List ℚ → ℚ → Option (List ℚ))
    (rs : List ℚ → Option (List ℚ)) (y : List ℚ) :
    Bool × Option (List ℕ) :=
  if ttsOk then
    match applyRobotEffects ts ps rs y with
    | none => (false, none)
    | some audio => (true, some (saveOptimized audio))
  else (false, none)

/-- Follows the claim's words (refinement target, not the source):
the quantised byte as `round((clamp(s,-1,1) + 1.0) * 127.5)` clamped
to `[0, 255]`. -/
def encodeByteClaimed (s : ℚ) : ℕ :=
  (min 255 (max 0 (round ((npClip s + 1) * (255 / 2 : ℚ))))).toNat

/-- Follows the claim's words (refinement target, not the source):
the chunk loop with the mean-envelope pitch shift applied to every
chunk unconditionally. -/
def processLoopClaimed (ps : List ℚ → ℚ → Option (List ℚ)) (y : List ℚ) :
    List ℕ → Option (List (List ℚ))
  | [] => some []
  | i :: is =>
    (ps (chunkOf y i) (shiftOf y i)).bind fun p =>
      (processLoopClaimed ps y is).bind fun rest => some (p :: rest)

/-- Follows the claim's words (refinement target, not the source):
`_add_inflection` with every chunk pitch-shifted. -/
def addInflectionClaimed (ps : List ℚ → ℚ → Option (List ℚ))
    (y : List ℚ) : Option (List ℚ) :=
  if ADD_END_INFLECTION then
    if tailLen y < 100 then some y
    else (processLoopClaimed ps y (List.range 10)).bind fun parts =>
      some (mainSeg y ++ parts.flatten)
  else some y

/-- A concrete always-succeeding identity stage, used to instantiate
abstract stages at concrete inputs. -/
def idStage : List ℚ → Option (List ℚ) := fun l => some l

/-- A concrete always-succeeding pitch-shift stage ignoring the shift
amount. -/
def idShift : List ℚ → ℚ → Option (List ℚ) := fun l _ => some l

/-- A concrete always-failing stage (a raised exception). -/
def failStage : List ℚ → Option (List ℚ) := fun _ => none

/-- A concrete pitch-shift stage that adds the shift amount to every
sample, so that a nonzero shift visibly changes the chunk. -/
def shiftPs : List ℚ → ℚ → Option (List ℚ) :=
  fun c s => some (c.map fun x => x + s)

theorem maxAbs_nil : maxAbs [] = 0 := rfl

theorem maxAbs_cons (x : ℚ) (w : List ℚ) :
    maxAbs (x :: w) = max |x| (maxAbs w) := rfl

theorem maxAbs_nonneg (w : List ℚ) : 0 ≤ maxAbs w := by
  induction w with
  | nil => exact le_refl 0
  | cons x w ih => exact le_trans ih (le_max_right _ _)

theorem maxAbs_eq_zero_iff (w : List ℚ) :
    maxAbs w = 0 ↔ ∀ x ∈ w, x = 0 := by
  induction w with
  | nil => simp [maxAbs]
  | cons x w ih =>
    rw [maxAbs_cons]
    constructor
    · intro h y hy
      have hx : |x| = 0 :=
        le_antisymm (h ▸ le_max_left |x| (maxAbs w)) (abs_nonneg x)
      have hw : maxAbs w = 0 :=
        le_antisymm (h ▸ le_max_right |x| (maxAbs w)) (maxAbs_nonneg w)
      rcases List.mem_cons.mp hy with rfl | hy
      · exact abs_eq_zero.mp hx
      · exact (ih.mp hw) y hy
    · intro h
      have hx : x = 0 := h x (List.mem_cons_self x w)
      have hw : maxAbs w = 0 :=
        ih.mpr fun y hy => h y (List.mem_cons_of_mem _ hy)
      rw [hx, hw, abs_zero]
      exact max_self 0

theorem maxAbs_map_div (w : List ℚ) {m : ℚ} (hm : 0 < m) :
    maxAbs (w.map fun x => x / m) = maxAbs w / m := by
  induction w with
  | nil => simp [maxAbs]
  | cons x w ih =>
    simp only [List.map_cons, maxAbs_cons, ih]
    rw [abs_div, abs_of_pos hm, max_div_div_right hm.le]

theorem normalize_of_maxAbs_eq_zero {w : List ℚ} (h : maxAbs w = 0) :
    normalize w = w := by
  unfold normalize
  rw [if_pos h]

theorem normalize_of_maxAbs_ne_zero {w : List ℚ} (h : maxAbs w ≠ 0) :
    normalize w = w.map fun x => x / maxAbs w := by
  unfold normalize
  rw [if_neg h]

theorem maxAbs_normalize {w : List ℚ} (h : maxAbs w ≠ 0) :
    maxAbs (normalize w) = 1 := by
  have hpos : 0 < maxAbs w := lt_of_le_of_ne (maxAbs_nonneg w) (Ne.symm h)
  rw [normalize_of_maxAbs_ne_zero h, maxAbs_map_div w hpos, div_self h]

theorem normalize_idem (w : List ℚ) :
    normalize (normalize w) = normalize w := by
  by_cases h : maxAbs w = 0
  · rw [normalize_of_maxAbs_eq_zero h, normalize_of_maxAbs_eq_zero h]
  · have h1 : maxAbs (normalize w) = 1 := maxAbs_normalize h
    have h2 : maxAbs (normalize w) ≠ 0 := by rw [h1]; exact one_ne_zero
    rw [normalize_of_maxAbs_ne_zero h2, h1]
    simp [div_one]

/-- C4: normalization is idempotent on every non-empty waveform, and
after one normalization of a not-all-zero waveform the peak absolute
sample value is exactly 1, which a second pass leaves unchanged. -/
theorem normalize_idempotent (w : List ℚ) :
    (w ≠ [] → normalize (normalize w) = normalize w) ∧
    (¬ (∀ x ∈ w, x = 0) →
      maxAbs (normalize w) = 1 ∧
      normalize (normalize w) = normalize w) := by
  refine ⟨fun _ => normalize_idem w, fun h => ⟨?_, normalize_idem w⟩⟩
  exact maxAbs_normalize (mt (maxAbs_eq_zero_iff w).mp h)

/-- C5: normalizing an all-zero (silent) waveform returns it
unchanged; in this exact-arithmetic model no division by zero and no
undefined value can arise. -/
theorem normalize_silence (w : List ℚ) (h : ∀ x ∈ w, x = 0) :
    normalize w = w :=
  normalize_of_maxAbs_eq_zero ((maxAbs_eq_zero_iff w).mpr h)

/-- C8: the quantizing encoder emits exactly one byte per input
sample. -/
theorem encode_length (w : List ℚ) : (encode w).length = w.length := by
  simp [encode]

/-- C3: when the tail segment computed by `_add_inflection` is shorter
than the 100-sample threshold, the inflection step returns its input
waveform completely unchanged, for every pitch-shift backend. -/
theorem addInflection_short_tail_guard
    (ps : List ℚ → ℚ → Option (List ℚ)) (y : List ℚ)
    (h : tailLen y < 100) : addInflection ps y = some y := by
  simp [addInflection, ADD_END_INFLECTION, h]

/-- C7: a failing effects stage yields `none` from
`_apply_robot_effects`, and `generate_clip` then returns failure
without producing any encoded clip; each individual stage failure
makes the whole effects pipeline fail. -/
theorem generateClip_failure_no_output (ts : List ℚ → Option (List ℚ))
    (ps : List ℚ → ℚ → Option (List ℚ))
    (rs : List ℚ → Option (List ℚ)) (y : List ℚ) :
    (applyRobotEffects ts ps rs y = none →
      generateClip true ts ps rs y = (false, none)) ∧
    (ts y = none → applyRobotEffects ts ps rs y = none) ∧
    (∀ y1, ts y = some y1 → ps y1 PITCH_SHIFT_STEPS = none →
      applyRobotEffects ts ps rs y = none) ∧
    (∀ y1 y2, ts y = some y1 → ps y1 PITCH_SHIFT_STEPS = some y2 →
      addInflection ps y2 = none → applyRobotEffects ts ps rs y = none) ∧
    (∀ y1 y2 y3, ts y = some y1 → ps y1 PITCH_SHIFT_STEPS = some y2 →
      addInflection ps y2 = some y3 → rs y3 = none →
      applyRobotEffects ts ps rs y = none) := by
  refine ⟨fun h => by simp [generateClip, h],
    fun h => by simp [applyRobotEffects, h],
    fun y1 h1 h2 => by simp [applyRobotEffects, h1, h2],
    fun y1 y2 h1 h2 h3 => by simp [applyRobotEffects, h1, h2, h3],
    fun y1 y2 y3 h1 h2 h3 h4 => by simp [applyRobotEffects, h1, h2, h3, h4]⟩

/-- C6: a successful run of `_apply_robot_effects` factors as
time-stretch, then global pitch shift, then end inflection, then
resampling, with normalization last; `generate_clip` then hands the
normalized waveform directly to the quantizing encoder, with no
processing in between. -/
theorem pipeline_stage_order (ts : List ℚ → Option (List ℚ))
    (ps : List ℚ → ℚ → Option (List ℚ))
    (rs : List ℚ → Option (List ℚ)) (y audio : List ℚ)
    (h : applyRobotEffects ts ps rs y = some audio) :
    ∃ y1 y2 y3 y4, ts y = some y1 ∧
      ps y1 PITCH_SHIFT_STEPS = some y2 ∧
      addInflection ps y2 = some y3 ∧ rs y3 = some y4 ∧
      audio = normalize y4 ∧
      generateClip true ts ps rs y =
        (true, some (saveOptimized (normalize y4))) := by
  have h' := h
  simp only [applyRobotEffects, Option.bind_eq_some, Option.some.injEq] at h'
  obtain ⟨y1, h1, y2, h2, y3, h3, y4, h4, h5⟩ := h'
  refine ⟨y1, y2, y3, y4, h1, h2, h3, h4, h5.symm, ?_⟩
  simp [generateClip, h, h5]

theorem tailLen_le (y : List ℚ) : tailLen y ≤ y.length := by
  have h1 : (y.length : ℚ) * INFLECTION_DURATION ≤ (y.length : ℚ) := by
    rw [INFLECTION_DURATION]
    nlinarith [Nat.cast_nonneg (α := ℚ) y.length]
  have h2 : Int.floor ((y.length : ℚ) * INFLECTION_DURATION) ≤
      (y.length : ℤ) := by
    have := Int.floor_mono h1
    rwa [Int.floor_natCast] at this
  exact Int.toNat_le.mpr h2

theorem tailSeg_length (y : List ℚ) : (tailSeg y).length = tailLen y := by
  rw [tailSeg, List.length_drop]
  have := tailLen_le y
  omega

theorem mainSeg_append_tailSeg (y : List ℚ) : mainSeg y ++ tailSeg y = y :=
  List.take_append_drop _ _

theorem chunkSize_eq (y : List ℚ) : chunkSize y = tailLen y / 10 := by
  rw [chunkSize, tailSeg_length]

theorem chunkOf_of_lt (y : List ℚ) {i : ℕ} (hi : i < 9) :
    chunkOf y i = ((tailSeg y).drop (i * chunkSize y)).take (chunkSize y) := by
  rw [chunkOf, pySlice, chunkEnd, if_pos hi, Nat.add_sub_cancel_left]

theorem chunkOf_nine (y : List ℚ) :
    chunkOf y 9 = (tailSeg y).drop (9 * chunkSize y) := by
  rw [chunkOf, pySlice, chunkEnd, if_neg (by omega)]
  exact List.take_of_length_le (by rw [List.length_drop])

theorem flatten_take_chunks {α : Type*} (cs : ℕ) :
    ∀ (k : ℕ) (l : List α),
      ((List.range k).map fun i => (l.drop (i * cs)).take cs).flatten =
        l.take (k * cs) := by
  intro k
  induction k with
  | zero => intro l; simp
  | succ k ih =>
    intro l
    rw [List.range_succ, List.map_append, List.flatten_append, ih]
    simp only [List.map_cons, List.map_nil, List.flatten_cons,
      List.flatten_nil, List.append_nil]
    rw [Nat.succ_mul, List.take_add]

theorem chunks_flatten (y : List ℚ) :
    ((List.range 10).map (chunkOf y)).flatten = tailSeg y := by
  rw [show (10 : ℕ) = 9 + 1 from rfl, List.range_succ, List.map_append,
    List.flatten_append]
  rw [List.map_congr_left fun i hi =>
    chunkOf_of_lt y (List.mem_range.mp hi)]
  rw [flatten_take_chunks (chunkSize y) 9 (tailSeg y)]
  simp only [List.map_cons, List.map_nil, List.flatten_cons,
    List.flatten_nil, List.append_nil]
  rw [chunkOf_nine]
  exact List.take_append_drop _ _

theorem chunkOf_length_of_lt (y : List ℚ) (h : 100 ≤ tailLen y)
    {i : ℕ} (hi : i < 9) : (chunkOf y i).length = chunkSize y := by
  rw [chunkOf_of_lt y hi, List.length_take, List.length_drop,
    tailSeg_length]
  have hcs := chunkSize_eq y
  interval_cases i <;> omega

theorem chunkOf_length_nine (y : List ℚ) (h : 100 ≤ tailLen y) :
    (chunkOf y 9).length = chunkSize y + tailLen y % 10 := by
  rw [chunkOf_nine, List.length_drop, tailSeg_length]
  have hcs := chunkSize_eq y
  omega

theorem processLoop_pointwise (psT : List ℚ → ℚ → List ℚ) (y : List ℚ) :
    ∀ is : List ℕ,
      processLoop (fun c s => some (psT c s)) y is =
        some (is.map fun i =>
          if 100 < (chunkOf y i).length then psT (chunkOf y i) (shiftOf y i)
          else chunkOf y i) := by
  intro is
  induction is with
  | nil => rfl
  | cons i is ih =>
    simp only [processLoop, ih, List.map_cons]
    split <;> simp

theorem processLoop_small (ps : List ℚ → ℚ → Option (List ℚ))
    (y : List ℚ) : ∀ is : List ℕ,
      (∀ i ∈ is, (chunkOf y i).length ≤ 100) →
      processLoop ps y is = some (is.map (chunkOf y)) := by
  intro is
  induction is with
  | nil => intro _; rfl
  | cons i is ih =>
    intro h
    have hi : ¬ 100 < (chunkOf y i).length := by
      have := h i (List.mem_cons_self _ _)
      omega
    have his := ih fun j hj => h j (List.mem_cons_of_mem _ hj)
    simp only [processLoop, if_neg hi, his, List.map_cons, Option.some_bind]

/-- C10: every tail chunk of at most 100 samples is appended with no
pitch shift applied, so a waveform that passes the 100-sample tail
guard while all ten chunks are at most 100 samples long is returned
unchanged by the inflection step, for every pitch-shift backend. -/
theorem addInflection_small_chunks_identity
    (ps : List ℚ → ℚ → Option (List ℚ)) (y : List ℚ)
    (h1 : 100 ≤ tailLen y)
    (h2 : ∀ i ∈ List.range 10, (chunkOf y i).length ≤ 100) :
    addInflection ps y = some y := by
  simp only [addInflection, ADD_END_INFLECTION, if_true,
    if_neg (by omega : ¬ tailLen y < 100)]
  rw [processLoop_small ps y (List.range 10) h2, Option.some_bind,
    chunks_flatten, mainSeg_append_tailSeg]

theorem take_range'_of_le : ∀ (k m s : ℕ), k ≤ m →
    (List.range' s m).take k = List.range' s k := by
  intro k
  induction k with
  | zero => intro m s _; simp
  | succ k ih =>
    intro m s hkm
    cases m with
    | zero => omega
    | succ m =>
      rw [List.range'_succ, List.take_succ_cons, List.range'_succ,
        ih m (s + 1) (by omega)]

theorem drop_range_eq (s n : ℕ) (h : s ≤ n) :
    (List.range n).drop s = List.range' s (n - s) := by
  rw [List.range_eq_range']
  have hsplit : List.range' 0 n = List.range' 0 s ++ List.range' s (n - s) := by
    calc List.range' 0 n = List.range' 0 ((n - s) + s) := by
          rw [Nat.sub_add_cancel h]
    _ = List.range' 0 s ++ List.range' (0 + s) (n - s) :=
          (List.range'_append_1 0 s (n - s)).symm
    _ = List.range' 0 s ++ List.range' s (n - s) := by rw [Nat.zero_add]
  rw [hsplit, List.drop_left' (by simp)]

theorem pySlice_linspace (a b : ℚ) (n s k : ℕ) (h : s + k ≤ n) :
    pySlice (linspace a b n) s (s + k) =
      (List.range' s k).map fun (j : ℕ) =>
        a + (b - a) * (j : ℚ) / ((n : ℚ) - 1) := by
  rw [linspace, pySlice, Nat.add_sub_cancel_left, ← List.map_drop,
    drop_range_eq s n (by omega), ← List.map_take,
    take_range'_of_le k (n - s) s (by omega)]

theorem sum_range'_cast : ∀ (k s : ℕ),
    ((List.range' s k).map fun (j : ℕ) => (j : ℚ)).sum =
      ((k : ℚ) * (2 * s + k) - k) / 2 := by
  intro k
  induction k with
  | zero => intro s; simp
  | succ k ih =>
    intro s
    rw [List.range'_succ, List.map_cons, List.sum_cons, ih (s + 1)]
    push_cast
    ring

theorem mean_pySlice_linspace (A : ℚ) (n s k : ℕ) (hk : 0 < k)
    (h : s + k ≤ n) :
    mean (pySlice (linspace 0 A n) s (s + k)) =
      A / ((n : ℚ) - 1) * (2 * s + k - 1) / 2 := by
  rw [mean, pySlice_linspace 0 A n s k h]
  have hmap : ((List.range' s k).map fun (j : ℕ) =>
      (0 : ℚ) + (A - 0) * (j : ℚ) / ((n : ℚ) - 1)) =
      (List.range' s k).map fun (j : ℕ) => A / ((n : ℚ) - 1) * (j : ℚ) := by
    refine List.map_congr_left fun j _ => ?_
    ring
  rw [hmap, List.sum_map_mul_left, sum_range'_cast k s, List.length_map,
    List.length_range']
  have hk' : (k : ℚ) ≠ 0 := Nat.cast_ne_zero.mpr (by omega)
  generalize A / ((n : ℚ) - 1) = r
  field_simp
  ring

theorem shiftOf_of_lt (y : List ℚ) (h : 100 ≤ tailLen y) {i : ℕ}
    (hi : i < 9) :
    shiftOf y i = INFLECTION_AMOUNT / ((tailLen y : ℚ) - 1) *
      (2 * ((i * chunkSize y : ℕ) : ℚ) + ((chunkSize y : ℕ) : ℚ) - 1) / 2 := by
  have hcs := chunkSize_eq y
  have hk : 0 < chunkSize y := by omega
  have hb : i * chunkSize y + chunkSize y ≤ tailLen y := by
    have h8 : i * chunkSize y ≤ 8 * chunkSize y :=
      Nat.mul_le_mul_right _ (by omega)
    omega
  rw [shiftOf, chunkEnd, if_pos hi, envOf, tailSeg_length]
  exact mean_pySlice_linspace INFLECTION_AMOUNT (tailLen y)
    (i * chunkSize y) (chunkSize y) hk hb

theorem shiftOf_nine (y : List ℚ) (h : 100 ≤ tailLen y) :
    shiftOf y 9 = INFLECTION_AMOUNT / ((tailLen y : ℚ) - 1) *
      (2 * ((9 * chunkSize y : ℕ) : ℚ) +
        ((tailLen y - 9 * chunkSize y : ℕ) : ℚ) - 1) / 2 := by
  have hcs := chunkSize_eq y
  have hk : 0 < tailLen y - 9 * chunkSize y := by omega
  have hb : 9 * chunkSize y + (tailLen y - 9 * chunkSize y) = tailLen y := by
    omega
  rw [shiftOf, chunkEnd, if_neg (by omega), envOf, tailSeg_length]
  have hm := mean_pySlice_linspace INFLECTION_AMOUNT (tailLen y)
    (9 * chunkSize y) (tailLen y - 9 * chunkSize y) hk (by omega)
  rw [hb] at hm
  exact hm

theorem shift_step {r X Y : ℚ} (hr : 0 < r) (hXY : X < Y) :
    r * X / 2 < r * Y / 2 := by
  have := mul_lt_mul_of_pos_left hXY hr
  linarith

theorem shiftOf_strictMono (y : List ℚ) (h : 100 ≤ tailLen y) :
    ∀ i j, i < j → j < 10 → shiftOf y i < shiftOf y j := by
  intro i j hij hj
  have hcs := chunkSize_eq y
  have hk : 0 < chunkSize y := by omega
  have hn1 : (1 : ℚ) < (tailLen y : ℚ) := by
    have h100 : (100 : ℚ) ≤ (tailLen y : ℚ) := by exact_mod_cast h
    linarith
  have hr : 0 < INFLECTION_AMOUNT / ((tailLen y : ℚ) - 1) := by
    rw [INFLECTION_AMOUNT]
    have hd : (0 : ℚ) < (tailLen y : ℚ) - 1 := by linarith
    positivity
  by_cases hj9 : j = 9
  · subst hj9
    rw [shiftOf_of_lt y h (show i < 9 by omega), shiftOf_nine y h]
    have hnat : 2 * (i * chunkSize y) + chunkSize y <
        2 * (9 * chunkSize y) + (tailLen y - 9 * chunkSize y) := by
      have h8 : i * chunkSize y ≤ 8 * chunkSize y :=
        Nat.mul_le_mul_right _ (by omega)
      omega
    have keyQ : 2 * ((i * chunkSize y : ℕ) : ℚ) + ((chunkSize y : ℕ) : ℚ) <
        2 * ((9 * chunkSize y : ℕ) : ℚ) +
          ((tailLen y - 9 * chunkSize y : ℕ) : ℚ) := by
      exact_mod_cast hnat
    exact shift_step hr (by linarith)
  · have hj' : j < 9 := by omega
    rw [shiftOf_of_lt y h (show i < 9 by omega), shiftOf_of_lt y h hj']
    have hnat : 2 * (i * chunkSize y) + chunkSize y <
        2 * (j * chunkSize y) + chunkSize y := by
      have hij' : i * chunkSize y < j * chunkSize y :=
        (Nat.mul_lt_mul_right hk).mpr hij
      omega
    have keyQ : 2 * ((i * chunkSize y : ℕ) : ℚ) + ((chunkSize y : ℕ) : ℚ) <
        2 * ((j * chunkSize y : ℕ) : ℚ) + ((chunkSize y : ℕ) : ℚ) := by
      exact_mod_cast hnat
    exact shift_step hr (by linarith)

/-- C2 amended: for every waveform whose tail passes the guard, the
inflection step splits the tail into ten consecutive chunks (the
first nine of equal length `n / 10`, the last absorbing the `n % 10`
remainder), computes for each chunk the mean of the linear
0-to-`INFLECTION_AMOUNT` envelope over that chunk's sample range
(these per-chunk shifts are strictly increasing), applies the
pitch shift to exactly those chunks longer than 100 samples while
appending the others unchanged, and returns the head concatenated
with the processed chunks in original order. -/
theorem addInflection_chunked_amended (psT : List ℚ → ℚ → List ℚ)
    (y : List ℚ) (h : 100 ≤ tailLen y) :
    addInflection (fun c s => some (psT c s)) y =
      some (mainSeg y ++ ((List.range 10).map fun i =>
        if 100 < (chunkOf y i).length then
          psT (chunkOf y i) (shiftOf y i)
        else chunkOf y i).flatten) ∧
    ((List.range 10).map (chunkOf y)).flatten = tailSeg y ∧
    mainSeg y ++ tailSeg y = y ∧
    (∀ i, i < 9 → (chunkOf y i).length = chunkSize y) ∧
    (chunkOf y 9).length = chunkSize y + tailLen y % 10 ∧
    (∀ i j, i < j → j < 10 → shiftOf y i < shiftOf y j) := by
  refine ⟨?_, chunks_flatten y, mainSeg_append_tailSeg y,
    fun i hi => chunkOf_length_of_lt y h hi,
    chunkOf_length_nine y h, shiftOf_strictMono y h⟩
  simp only [addInflection, ADD_END_INFLECTION, if_true,
    if_neg (by omega : ¬ tailLen y < 100)]
  rw [processLoop_pointwise psT y (List.range 10), Option.some_bind]

/-- C9: every persisted clip is a RIFF/WAVE byte sequence with a
44-byte header declaring PCM format code 1, one channel, the
configured target sample rate and 8 bits per sample, followed
directly by the raw unsigned sample bytes; the data chunk size equals
the number of audio bytes and the RIFF chunk size equals 36 plus the
data size. -/
theorem wav_layout (audio : List ℚ) :
    (saveOptimized audio).length = 44 + (encode audio).length ∧
    (saveOptimized audio).drop 44 = encode audio ∧
    pySlice (saveOptimized audio) 0 4 = [82, 73, 70, 70] ∧
    pySlice (saveOptimized audio) 4 8 =
      le32 (36 + (encode audio).length) ∧
    pySlice (saveOptimized audio) 8 12 = [87, 65, 86, 69] ∧
    pySlice (saveOptimized audio) 12 16 = [102, 109, 116, 32] ∧
    pySlice (saveOptimized audio) 16 20 = le32 16 ∧
    pySlice (saveOptimized audio) 20 22 = le16 1 ∧
    pySlice (saveOptimized audio) 22 24 = le16 1 ∧
    pySlice (saveOptimized audio) 24 28 = le32 SAMPLE_RATE ∧
    pySlice (saveOptimized audio) 34 36 = le16 8 ∧
    pySlice (saveOptimized audio) 36 40 = [100, 97, 116, 97] ∧
    pySlice (saveOptimized audio) 40 44 = le32 (encode audio).length := by
  have hlen : (saveOptimized audio).length = 44 + (encode audio).length := by
    simp [saveOptimized, wavFile, wavHeader, le16, le32, SAMPLE_RATE]
    omega
  refine ⟨hlen, ?_, ?_, ?_, ?_, ?_, ?_, ?_, ?_, ?_, ?_, ?_, ?_⟩ <;>
    simp [saveOptimized, wavFile, wavHeader, le16, le32, SAMPLE_RATE,
      pySlice]

section ConcreteEvaluation

attribute [local semireducible] Rat.add Rat.mul Rat.inv Rat.sub Rat.ofScientific

/-- C1 counterexample: the code truncates, so input sample `0.0`
yields byte `127`, while the claimed `round`-based formula yields
`128`. -/
theorem encode_round_counterexample :
    encode [(0 : ℚ)] = [127] ∧ encodeByteClaimed 0 = 128 ∧
    (127 : ℕ) ≠ 128 := by
  exact ⟨by decide, by decide, by decide⟩

/-- C1 amended: the emitted byte equals
`floor((clamp(s,-1,1) + 1.0) * 127.5)` (the truncating uint8 cast of a
nonnegative value), every output byte lies in `[0, 255]`, sample `0.0`
maps to byte `127` (within one of 128), sample `1.0` to `255` and
sample `-1.0` to `0`. -/
theorem encode_floor_amended :
    (∀ s : ℚ, encodeByte s ≤ 255 ∧
      encodeByte s = (Int.floor ((npClip s + 1) * (255 / 2 : ℚ))).toNat) ∧
    encodeByte 0 = 127 ∧ encodeByte 1 = 255 ∧ encodeByte (-1) = 0 ∧
    ∀ w : List ℚ, encode w = w.map encodeByte := by
  refine ⟨fun s => ⟨?_, rfl⟩, by decide, by decide, by decide, fun w => rfl⟩
  have h1 : npClip s ≤ 1 := min_le_left _ _
  have h2 : (npClip s + 1) * (255 / 2 : ℚ) ≤ 255 := by nlinarith
  have h3 : Int.floor ((npClip s + 1) * (255 / 2 : ℚ)) ≤ (255 : ℤ) := by
    have := Int.floor_mono h2
    rwa [show ((255 : ℚ)) = ((255 : ℤ) : ℚ) by norm_num, Int.floor_intCast]
      at this
  exact Int.toNat_le.mpr h3

/-- C4 witness at the concrete waveform `[2, -1]`. -/
theorem normalize_idempotent_witness :
    normalize (normalize [(2 : ℚ), -1]) = normalize [(2 : ℚ), -1] ∧
    maxAbs (normalize [(2 : ℚ), -1]) = 1 :=
  ⟨(normalize_idempotent [(2 : ℚ), -1]).1 (by decide),
   ((normalize_idempotent [(2 : ℚ), -1]).2 (by decide)).1⟩

/-- C5 witness at the concrete silent waveform `[0, 0]`. -/
theorem normalize_silence_witness :
    normalize [(0 : ℚ), 0] = [(0 : ℚ), 0] :=
  normalize_silence [(0 : ℚ), 0] (by decide)

/-- C3 witness at a three-sample waveform, whose tail is far below
the 100-sample threshold. -/
theorem addInflection_short_tail_guard_witness :
    addInflection idShift [(1 : ℚ), 2, 3] = some [(1 : ℚ), 2, 3] :=
  addInflection_short_tail_guard idShift [(1 : ℚ), 2, 3] (by decide)

/-- C7 witness: with a failing time-stretch stage, `generate_clip`
reports failure and produces no clip. -/
theorem generateClip_failure_no_output_witness :
    generateClip true failStage idShift idStage [(1 : ℚ)] =
      (false, none) :=
  (generateClip_failure_no_output failStage idShift idStage
    [(1 : ℚ)]).1 (by decide)

/-- C2 counterexample: on a 674-sample waveform the tail has 101
samples and passes the guard, yet every chunk is at most 100 samples
long, so the code applies no pitch shift at all and returns the
waveform unchanged, while the claimed unconditional per-chunk shift
(witnessed by a pitch-shift backend that visibly changes its chunk)
would alter it; moreover the ten chunks are not of equal length
(the first has 10 samples, the last 11). -/
theorem addInflection_unconditional_shift_counterexample :
    addInflection shiftPs (List.replicate 674 (0 : ℚ)) =
      some (List.replicate 674 (0 : ℚ)) ∧
    addInflectionClaimed shiftPs (List.replicate 674 (0 : ℚ)) ≠
      some (List.replicate 674 (0 : ℚ)) ∧
    (chunkOf (List.replicate 674 (0 : ℚ)) 0).length = 10 ∧
    (chunkOf (List.replicate 674 (0 : ℚ)) 9).length = 11 :=
  ⟨by decide, by decide, by decide, by decide⟩

/-- C2 amended witness at the concrete 674-sample waveform: the
chunks tile the tail and the first per-chunk shift is smaller than
the last. -/
theorem addInflection_chunked_amended_witness :
    ((List.range 10).map (chunkOf (List.replicate 674 (0 : ℚ)))).flatten =
      tailSeg (List.replicate 674 (0 : ℚ)) ∧
    shiftOf (List.replicate 674 (0 : ℚ)) 0 <
      shiftOf (List.replicate 674 (0 : ℚ)) 9 :=
  ⟨(addInflection_chunked_amended (fun c s => c.map fun x => x + s)
      (List.replicate 674 (0 : ℚ)) (by decide)).2.1,
   (addInflection_chunked_amended (fun c s => c.map fun x => x + s)
      (List.replicate 674 (0 : ℚ)) (by decide)).2.2.2.2.2 0 9
      (by omega) (by omega)⟩

/-- C10 witness: a 667-sample waveform has a 100-sample tail (so the
guard passes) split into ten 10-sample chunks, and the inflection
step returns it unchanged even for a pitch-shift backend that would
fail if invoked. -/
theorem addInflection_small_chunks_identity_witness :
    addInflection (fun _ _ => none) (List.replicate 667 (0 : ℚ)) =
      some (List.replicate 667 (0 : ℚ)) :=
  addInflection_small_chunks_identity (fun _ _ => none)
    (List.replicate 667 (0 : ℚ)) (by decide) (by decide)

/-- C6 witness: with identity stages on a one-sample waveform the
pipeline succeeds and persists the encoded normalized waveform. -/
theorem pipeline_stage_order_witness :
    generateClip true idStage idShift idStage [(1 : ℚ)] =
      (true, some (saveOptimized [(1 : ℚ)])) := by
  obtain ⟨y1, y2, y3, y4, h1, h2, h3, h4, h5, h6⟩ :=
    pipeline_stage_order idStage idShift idStage [(1 : ℚ)] [(1 : ℚ)]
      (by decide)
  rw [h6, ← h5]

end ConcreteEvaluation

end Blip
